import Mathlib

/-!
# Verification of the SharpKnight parameter-tuning optimizer

Shallow embedding of `SharpKnight/Meta/engine_parameter_tuning.py`: the
`Parameter` 16-bit codec, the PBIL probability model and its update rule,
population sampling, and the per-generation step of the driver loop in
`main`.  Python floats are modelled as exact rationals; the random source
(`random.random()` / `random.choice([0, 1])`) is passed explicitly as
functions from draw positions to values; fallible driver code returns
`Option` (`none` models an uncaught Python exception).
-/

namespace SharpKnight

/-- Python `int()` applied to a number: truncation toward zero. -/
def pyInt (q : ℚ) : ℤ := if 0 ≤ q then ⌊q⌋ else ⌈q⌉

/-- Python `round()` on a number: round half to even (banker's rounding). -/
def pyRound (q : ℚ) : ℤ :=
  if q - ⌊q⌋ < 1/2 then ⌊q⌋
  else if 1/2 < q - ⌊q⌋ then ⌊q⌋ + 1
  else if ⌊q⌋ % 2 = 0 then ⌊q⌋ else ⌊q⌋ + 1

/-- Big-endian binary digits of `n`, empty for 0.  The first argument is
fuel bounding the recursion depth; any fuel `≥ n` gives the digits of `n`. -/
def binDigits : ℕ → ℕ → List Bool
  | 0, _ => []
  | fuel + 1, n => if n = 0 then [] else binDigits fuel (n / 2) ++ [n % 2 == 1]

/-- Python `format(n, 'b')` for a natural number, as bits: minimal big-endian
binary digits, with `"0"` (one bit) for 0. -/
def pyFormatB (n : ℕ) : List Bool := if n = 0 then [false] else binDigits n n

/-- Python `format(i, '016b')` followed by mapping each character `c` to
`c == '1'`, as in `Parameter.encode`.  Nonnegative numbers are left-padded
with `'0'` to a minimum width of 16 (wider numbers are not truncated);
negative numbers carry a sign character, which reads back as a `false` bit,
inside the same minimum width. -/
def format016b (i : ℤ) : List Bool :=
  if 0 ≤ i then
    List.replicate (16 - (pyFormatB i.toNat).length) false ++ pyFormatB i.toNat
  else
    false :: (List.replicate (15 - (pyFormatB i.natAbs).length) false ++ pyFormatB i.natAbs)

/-- One step of Python `int(binary_str, 2)`: shift the accumulator and add
the incoming bit. -/
def bitStep (acc : ℕ) (b : Bool) : ℕ := 2 * acc + (if b then 1 else 0)

/-- Python `int(''.join('1' if bit else '0' for bit in bits), 2)`:
the bits read as a big-endian binary numeral. -/
def bitsToNat (bits : List Bool) : ℕ := bits.foldl bitStep 0

/-- The `Parameter` dataclass: one tunable dimension with bounds, a default
value and an integrality flag. -/
structure Parameter where
  name : String
  min_value : ℚ
  max_value : ℚ
  default_value : ℚ
  is_integer : Bool
deriving DecidableEq

/-- `Parameter.encode`: normalize the value over `[min_value, max_value]`,
scale by 65535, truncate with `int()` and render with `format(_, '016b')`. -/
def Parameter.encode (p : Parameter) (value : ℚ) : List Bool :=
  format016b (pyInt ((value - p.min_value) / (p.max_value - p.min_value) * 65535))

/-- `Parameter.decode`: read the bits as an integer, map linearly back onto
`[min_value, max_value]`, and round with Python `round()` when
`is_integer` is set. -/
def Parameter.decode (p : Parameter) (bits : List Bool) : ℚ :=
  if p.is_integer then
    ((pyRound (p.min_value + ((bitsToNat bits : ℚ) / 65535) * (p.max_value - p.min_value)) : ℤ) : ℚ)
  else
    p.min_value + ((bitsToNat bits : ℚ) / 65535) * (p.max_value - p.min_value)

/-- The `PBIL` class state: the parameter list, the four learning constants,
`total_bits = len(parameters) * 16` and the probability vector. -/
structure PBIL where
  parameters : List Parameter
  learn_rate : ℚ
  neg_learn_rate : ℚ
  mut_prob : ℚ
  mut_shift : ℚ
  total_bits : ℕ
  prob_vector : List ℚ
deriving DecidableEq

/-- `PBIL.__init__`: stores the parameters and rates, sets
`total_bits = len(parameters) * 16` and fills the probability vector with
0.5 (`np.full(self.total_bits, 0.5)`).  No validation of any kind is
performed on the parameter list. -/
def PBIL.init (parameters : List Parameter)
    (learn_rate neg_learn_rate mut_prob mut_shift : ℚ) : PBIL :=
  ⟨parameters, learn_rate, neg_learn_rate, mut_prob, mut_shift,
   parameters.length * 16, List.replicate (parameters.length * 16) (1/2)⟩

/-- `PBIL.generate_population`: each individual draws one uniform number per
probability-vector position, sequentially
(`[[random.random() < p for p in self.prob_vector] for _ in range(size)]`).
`rng k` is the value of the `k`-th call to `random.random()`. -/
def PBIL.generate_population (m : PBIL) (size : ℕ) (rng : ℕ → ℚ) : List (List Bool) :=
  (List.range size).map (fun j =>
    (List.range m.prob_vector.length).map (fun i =>
      decide (rng (j * m.prob_vector.length + i) < m.prob_vector.getD i 0)))

/-- `PBIL.decode_individual`: split the code into 16-bit blocks in parameter
declaration order and decode each; the resulting Python dict is modelled as
an association list in insertion order. -/
def PBIL.decode_individual (m : PBIL) (individual : List Bool) : List (String × ℚ) :=
  m.parameters.enum.map (fun ip => (ip.2.name, ip.2.decode ((individual.drop (ip.1 * 16)).take 16)))

/-- The main-pass body of `PBIL.update_probabilities` at one bit position:
`p * (1 - learn_rate) + best[i] * learn_rate` when the best and worst bits
agree, and the same with `learn_rate + neg_learn_rate` when they disagree
(Python booleans act as 0/1 in arithmetic). -/
def mainStep (lr nlr p : ℚ) (b w : Bool) : ℚ :=
  if b = w then p * (1 - lr) + (if b then (1:ℚ) else 0) * lr
  else p * (1 - (lr + nlr)) + (if b then (1:ℚ) else 0) * (lr + nlr)

/-- The mutation-pass body of `PBIL.update_probabilities` at one bit
position: when the uniform draw falls below `mut_prob`, move toward the
random target bit by `mut_shift`; otherwise leave the entry unchanged. -/
def mutStep (mp ms p draw : ℚ) (target : Bool) : ℚ :=
  if draw < mp then p * (1 - ms) + (if target then (1:ℚ) else 0) * ms else p

/-- `PBIL.update_probabilities`: the first loop rewrites every position
`i < total_bits` from `best[i]`/`worst[i]`, then the second loop applies
mutation to the already-updated vector.  `draws i` is the value of
`random.random()` and `targets i` the value of `random.choice([0, 1])`
potentially consumed at position `i` of the mutation pass. -/
def PBIL.update_probabilities (m : PBIL) (best worst : List Bool)
    (draws : ℕ → ℚ) (targets : ℕ → Bool) : PBIL :=
  let afterMain := (List.range m.total_bits).map (fun i =>
    mainStep m.learn_rate m.neg_learn_rate (m.prob_vector.getD i 0)
      (best.getD i false) (worst.getD i false))
  let afterMut := (List.range m.total_bits).map (fun i =>
    mutStep m.mut_prob m.mut_shift (afterMain.getD i 0) (draws i) (targets i))
  ⟨m.parameters, m.learn_rate, m.neg_learn_rate, m.mut_prob, m.mut_shift,
   m.total_bits, afterMut⟩

/-- One generation record appended to `parameter_tuning_log.json` by `main`. -/
structure GenRecord where
  generation : ℕ
  parameters : List (String × ℚ)
  score : ℚ
  default_score : ℚ
deriving DecidableEq

/-- Stable insertion of index `i` into an index list kept ascending by
score: `i` goes after every already-placed index of score `≤` its own. -/
def insertAsc (scores : List ℚ) (i : ℕ) : List ℕ → List ℕ
  | [] => [i]
  | j :: rest =>
    if scores.getD i 0 < scores.getD j 0 then i :: j :: rest
    else j :: insertAsc scores i rest

/-- `np.argsort(fitness_scores)` as used by `main`: indices of the scores in
ascending score order, equal indices kept stable (numpy uses insertion sort
on arrays this small). -/
def argsort (scores : List ℚ) : List ℕ :=
  (List.range scores.length).foldl (fun acc i => insertAsc scores i acc) []

/-- One iteration of the generation loop in `main` (lines 193-209), given
the already-sampled population and the fitness scores returned by
`EngineEvaluator.run_tournament`: prepend the default configuration, take
`best_index = np.argsort(fitness_scores)[::-1][0]`, and build the record
from `configurations[best_index]`, `fitness_scores[best_index]` and
`fitness_scores[0]`.  `none` models an uncaught `IndexError`
(`sorted_indices[0]` or `fitness_scores[0]` on an empty score list,
`configurations[best_index]` out of range).  The returned model is the one
`main` carries into the next generation: the loop body never reassigns or
updates `pbil`. -/
def mainGeneration (default_params : List (String × ℚ)) (m : PBIL) (generation : ℕ)
    (population : List (List Bool)) (fitness_scores : List ℚ) : Option (GenRecord × PBIL) :=
  let configurations := default_params :: population.map m.decode_individual
  if fitness_scores.isEmpty then none
  else
    let best_index := ((argsort fitness_scores).reverse).headD 0
    if configurations.length ≤ best_index then none
    else some (⟨generation, configurations.getD best_index [],
                fitness_scores.getD best_index 0, fitness_scores.getD 0 0⟩, m)

/-- The spec's example parameter: integer `Depth` bounded `[1, 10]`,
default 5. -/
def depthParam : Parameter := ⟨"Depth", 1, 10, 5, true⟩

/-- The spec's end-to-end example parameter: a single integer parameter
bounded `[0, 100]`, default 50. -/
def pctParam : Parameter := ⟨"Pct", 0, 100, 50, true⟩

/-- Non-integer variant of the `[0, 100]` parameter. -/
def pctParamF : Parameter := ⟨"PctF", 0, 100, 50, false⟩

/-- Integer parameter with fractional upper bound `8/5`. -/
def fracParam : Parameter := ⟨"Frac", 0, 8/5, 1, true⟩

/-- A malformed parameter space: the first parameter has
`min_value > max_value` and both parameters share the name `"a"`. -/
def badParamSpace : List Parameter := [⟨"a", 5, 3, 4, true⟩, ⟨"a", 0, 1, 0, false⟩]

/-- A PBIL state over one parameter with every probability pinned at 1. -/
def allOneModel : PBIL := ⟨[depthParam], 1/10, 3/40, 1/50, 1/20, 16, List.replicate 16 1⟩

/-- A PBIL state over one parameter with every probability pinned at 0. -/
def allZeroModel : PBIL := ⟨[depthParam], 1/10, 3/40, 1/50, 1/20, 16, List.replicate 16 0⟩

/-- Helper: Python truncation agrees with the floor on nonnegative input. -/
theorem pyInt_nonneg_eq (q : ℚ) (h : 0 ≤ q) : pyInt q = ⌊q⌋ := by
  simp [pyInt, h]

/-- Helper: `pyRound` below the half-point rounds down. -/
theorem pyRound_lt_half (q : ℚ) (h : q - ⌊q⌋ < 1/2) : pyRound q = ⌊q⌋ := by
  unfold pyRound
  rw [if_pos h]

/-- Helper: `pyRound` above the half-point rounds up. -/
theorem pyRound_half_lt (q : ℚ) (h : 1/2 < q - ⌊q⌋) : pyRound q = ⌊q⌋ + 1 := by
  unfold pyRound
  rw [if_neg (by linarith), if_pos h]

/-- Helper: `decode` on an integer parameter is the rounded affine map. -/
theorem decode_int_eq (p : Parameter) (bits : List Bool) (h : p.is_integer = true) :
    p.decode bits =
      ((pyRound (p.min_value + ((bitsToNat bits : ℚ) / 65535) * (p.max_value - p.min_value)) : ℤ) : ℚ) := by
  simp [Parameter.decode, h]

/-- Helper: `decode` on a non-integer parameter is the affine map itself. -/
theorem decode_float_eq (p : Parameter) (bits : List Bool) (h : p.is_integer = false) :
    p.decode bits = p.min_value + ((bitsToNat bits : ℚ) / 65535) * (p.max_value - p.min_value) := by
  simp [Parameter.decode, h]

/-- Helper: `getD` on a map over `List.range`. -/
theorem getD_map_range {α : Type} (f : ℕ → α) (d : α) (n i : ℕ) (h : i < n) :
    ((List.range n).map f).getD i d = f i := by
  have hl : i < ((List.range n).map f).length := by simpa using h
  rw [List.getD_eq_getElem _ _ hl]
  simp

/-- Helper: `binDigits` of 0 is empty for any fuel. -/
theorem binDigits_zero (fuel : ℕ) : binDigits fuel 0 = [] := by
  cases fuel <;> simp [binDigits]

/-- Helper: unfolding `binDigits` at a nonzero argument. -/
theorem binDigits_succ (fuel n : ℕ) (h : n ≠ 0) :
    binDigits (fuel + 1) n = binDigits fuel (n / 2) ++ [n % 2 == 1] := by
  simp [binDigits, h]

/-- Helper: folding `bitStep` over the digits of `n` from accumulator `a`
yields `a` shifted past the digit block, plus `n`. -/
theorem foldl_bitStep_binDigits (fuel : ℕ) : ∀ n a, n ≤ fuel →
    List.foldl bitStep a (binDigits fuel n)
      = a * 2 ^ (binDigits fuel n).length + n := by
  induction fuel with
  | zero =>
    intro n a h
    have hn : n = 0 := by omega
    subst hn
    simp [binDigits]
  | succ f ih =>
    intro n a h
    by_cases hn : n = 0
    · subst hn
      simp [binDigits]
    · rw [binDigits_succ f n hn, List.foldl_append]
      rw [ih (n / 2) a (by omega)]
      simp only [List.foldl_cons, List.foldl_nil, List.length_append,
        List.length_cons, List.length_nil, bitStep]
      have hbit : (if (n % 2 == 1) = true then (1:ℕ) else 0) = n % 2 := by
        rcases Nat.mod_two_eq_zero_or_one n with h2 | h2 <;> simp [h2]
      rw [hbit]
      have h3 : 2 * (n / 2) + n % 2 = n := Nat.div_add_mod n 2
      calc 2 * (a * 2 ^ (binDigits f (n / 2)).length + n / 2) + n % 2
          = a * (2 ^ (binDigits f (n / 2)).length * 2) + (2 * (n / 2) + n % 2) := by ring
        _ = a * 2 ^ ((binDigits f (n / 2)).length + (0 + 1)) + n := by
            rw [h3, pow_succ]

/-- Helper: `n` is below `2 ^ (number of its binary digits)`. -/
theorem lt_two_pow_binDigits (fuel : ℕ) : ∀ n, n ≤ fuel →
    n < 2 ^ (binDigits fuel n).length := by
  induction fuel with
  | zero =>
    intro n h
    have hn : n = 0 := by omega
    subst hn
    simp [binDigits]
  | succ f ih =>
    intro n h
    by_cases hn : n = 0
    · subst hn
      simp [binDigits]
    · rw [binDigits_succ f n hn]
      simp only [List.length_append, List.length_cons, List.length_nil]
      have h2 := ih (n / 2) (by omega)
      rw [pow_succ]
      omega

/-- Helper: `n < 2 ^ k` bounds the number of binary digits of `n` by `k`. -/
theorem binDigits_length_le (fuel : ℕ) : ∀ n k, n ≤ fuel → n < 2 ^ k →
    (binDigits fuel n).length ≤ k := by
  induction fuel with
  | zero =>
    intro n k h hk
    have hn : n = 0 := by omega
    subst hn
    simp [binDigits]
  | succ f ih =>
    intro n k h hk
    by_cases hn : n = 0
    · subst hn
      simp [binDigits]
    · rw [binDigits_succ f n hn]
      simp only [List.length_append, List.length_cons, List.length_nil]
      have hk0 : k ≠ 0 := by
        intro h0
        subst h0
        simp at hk
        omega
      obtain ⟨k2, rfl⟩ : ∃ k2, k = k2 + 1 := ⟨k - 1, by omega⟩
      have hdiv : n / 2 < 2 ^ k2 := by
        rw [pow_succ] at hk
        omega
      have h2 := ih (n / 2) k2 (by omega) hdiv
      omega

/-- Helper: reading back the digit list of `n` recovers `n`. -/
theorem bitsToNat_binDigits (n : ℕ) : bitsToNat (binDigits n n) = n := by
  have h := foldl_bitStep_binDigits n n 0 le_rfl
  simpa [bitsToNat] using h

/-- Helper: reading back `pyFormatB n` recovers `n`. -/
theorem bitsToNat_pyFormatB (n : ℕ) : bitsToNat (pyFormatB n) = n := by
  by_cases hn : n = 0
  · subst hn
    simp [pyFormatB, bitsToNat, bitStep]
  · simp [pyFormatB, hn, bitsToNat_binDigits]

/-- Helper: leading `false` bits contribute nothing to the numeral. -/
theorem foldl_bitStep_replicate_false (k : ℕ) :
    List.foldl bitStep 0 (List.replicate k false) = 0 := by
  induction k with
  | zero => rfl
  | succ j ih => simpa [List.replicate_succ, bitStep] using ih

/-- Helper: the `'016b'` rendering of a nonnegative integer reads back to
the same number. -/
theorem bitsToNat_format016b (n : ℤ) (h0 : 0 ≤ n) :
    bitsToNat (format016b n) = n.toNat := by
  unfold format016b
  rw [if_pos h0]
  rw [bitsToNat, List.foldl_append, foldl_bitStep_replicate_false]
  exact bitsToNat_pyFormatB n.toNat

/-- Helper: the `'016b'` rendering of an integer in `[0, 65535]` has
exactly 16 bits. -/
theorem format016b_length_eq (n : ℤ) (h0 : 0 ≤ n) (h : n < 65536) :
    (format016b n).length = 16 := by
  unfold format016b
  rw [if_pos h0, List.length_append, List.length_replicate]
  have hlen : (pyFormatB n.toNat).length ≤ 16 := by
    unfold pyFormatB
    by_cases hn : n.toNat = 0
    · simp [hn]
    · rw [if_neg hn]
      have h16 : n.toNat < 2 ^ 16 := by
        have hp : (2:ℕ) ^ 16 = 65536 := by norm_num
        omega
      exact binDigits_length_le n.toNat n.toNat 16 le_rfl h16
  omega

/-- Helper: the `'016b'` rendering of an integer `≥ 65536` has at least 17
bits — the width-16 format string does not truncate. -/
theorem format016b_length_ge (n : ℤ) (h : 65536 ≤ n) :
    17 ≤ (format016b n).length := by
  unfold format016b
  rw [if_pos (by omega), List.length_append, List.length_replicate]
  have h1 : 17 ≤ (pyFormatB n.toNat).length := by
    unfold pyFormatB
    rw [if_neg (by omega)]
    have h2 := lt_two_pow_binDigits n.toNat n.toNat le_rfl
    have h3 : (2:ℕ) ^ 16 ≤ n.toNat := by
      have hp : (2:ℕ) ^ 16 = 65536 := by norm_num
      omega
    have h4 : (2:ℕ) ^ 16 < 2 ^ (binDigits n.toNat n.toNat).length :=
      lt_of_le_of_lt h3 h2
    have h5 : 16 < (binDigits n.toNat n.toNat).length :=
      (pow_lt_pow_iff_right₀ (by norm_num : (1:ℕ) < 2)).mp h4
    omega
  omega

/-- Helper: `pyRound` moves its argument by at most one half. -/
theorem abs_pyRound_sub_le (q : ℚ) : |((pyRound q : ℤ) : ℚ) - q| ≤ 1/2 := by
  have h0 : ((⌊q⌋ : ℤ) : ℚ) ≤ q := Int.floor_le q
  have h1 : q < ⌊q⌋ + 1 := Int.lt_floor_add_one q
  unfold pyRound
  split_ifs with hA hB hC
  · rw [abs_le]
    constructor <;> push_cast <;> linarith
  · rw [abs_le]
    constructor <;> push_cast <;> linarith
  · rw [abs_le]
    constructor <;> push_cast <;> linarith [le_of_not_lt hA, le_of_not_lt hB]
  · rw [abs_le]
    constructor <;> push_cast <;> linarith [le_of_not_lt hA, le_of_not_lt hB]

/-- Helper: `pyRound` never falls below the floor. -/
theorem floor_le_pyRound (q : ℚ) : ⌊q⌋ ≤ pyRound q := by
  unfold pyRound
  split_ifs <;> omega

/-- Helper: `pyRound` never exceeds the ceiling. -/
theorem pyRound_le_ceil (q : ℚ) : pyRound q ≤ ⌈q⌉ := by
  have hfc : ⌊q⌋ ≤ ⌈q⌉ := Int.floor_le_ceil q
  have hcq : q ≤ (⌈q⌉ : ℚ) := Int.le_ceil q
  unfold pyRound
  split_ifs with hA hB hC
  · exact hfc
  · have hne : ((⌊q⌋ : ℤ) : ℚ) < q := by linarith
    have h2 : ⌊q⌋ < ⌈q⌉ := by exact_mod_cast lt_of_lt_of_le hne hcq
    omega
  · exact hfc
  · have hne : ((⌊q⌋ : ℤ) : ℚ) < q := by
      have h3 := le_of_not_lt hA
      linarith
    have h2 : ⌊q⌋ < ⌈q⌉ := by exact_mod_cast lt_of_lt_of_le hne hcq
    omega

/-- Helper: a bit list of length `L` reads back below `2 ^ L`. -/
theorem foldl_bitStep_lt (bits : List Bool) : ∀ a,
    List.foldl bitStep a bits < (a + 1) * 2 ^ bits.length := by
  induction bits with
  | nil => intro a; simp
  | cons b bs ih =>
    intro a
    simp only [List.foldl_cons, List.length_cons]
    have h2 := ih (bitStep a b)
    have hb : bitStep a b ≤ 2 * a + 1 := by
      unfold bitStep
      split_ifs <;> omega
    calc List.foldl bitStep (bitStep a b) bs
        < (bitStep a b + 1) * 2 ^ bs.length := h2
      _ ≤ (2 * a + 2) * 2 ^ bs.length := Nat.mul_le_mul_right _ (by omega)
      _ = (a + 1) * 2 ^ (bs.length + 1) := by
          rw [pow_succ]
          ring

/-- Helper: `bitsToNat` is bounded by `2 ^ length`. -/
theorem bitsToNat_lt (bits : List Bool) : bitsToNat bits < 2 ^ bits.length := by
  have h := foldl_bitStep_lt bits 0
  simpa [bitsToNat] using h

/-- Helper: a convex combination of two points of `[0, 1]` stays in
`[0, 1]`. -/
theorem convex_unit (p r b : ℚ) (hp0 : 0 ≤ p) (hp1 : p ≤ 1) (hr0 : 0 ≤ r) (hr1 : r ≤ 1)
    (hb0 : 0 ≤ b) (hb1 : b ≤ 1) :
    0 ≤ p * (1 - r) + b * r ∧ p * (1 - r) + b * r ≤ 1 := by
  constructor
  · have h1 : 0 ≤ p * (1 - r) := mul_nonneg hp0 (by linarith)
    have h2 : 0 ≤ b * r := mul_nonneg hb0 hr0
    linarith
  · have h1 : p * (1 - r) ≤ 1 * (1 - r) := mul_le_mul_of_nonneg_right hp1 (by linarith)
    have h2 : b * r ≤ 1 * r := mul_le_mul_of_nonneg_right hb1 hr0
    linarith

/-- Helper: the main update step stays in `[0, 1]`. -/
theorem mainStep_mem (lr nlr p : ℚ) (b w : Bool)
    (hp0 : 0 ≤ p) (hp1 : p ≤ 1) (hlr0 : 0 ≤ lr) (hlr1 : lr ≤ 1)
    (hnlr0 : 0 ≤ nlr) (hsum : lr + nlr ≤ 1) :
    0 ≤ mainStep lr nlr p b w ∧ mainStep lr nlr p b w ≤ 1 := by
  have hb0 : (0:ℚ) ≤ (if b then (1:ℚ) else 0) := by split_ifs <;> norm_num
  have hb1 : (if b then (1:ℚ) else 0) ≤ 1 := by split_ifs <;> norm_num
  unfold mainStep
  by_cases h : b = w
  · rw [if_pos h]
    exact convex_unit p lr _ hp0 hp1 hlr0 hlr1 hb0 hb1
  · rw [if_neg h]
    exact convex_unit p (lr + nlr) _ hp0 hp1 (by linarith) hsum hb0 hb1

/-- Helper: the mutation step stays in `[0, 1]`. -/
theorem mutStep_mem (mp ms p draw : ℚ) (target : Bool)
    (hp0 : 0 ≤ p) (hp1 : p ≤ 1) (hms0 : 0 ≤ ms) (hms1 : ms ≤ 1) :
    0 ≤ mutStep mp ms p draw target ∧ mutStep mp ms p draw target ≤ 1 := by
  have ht0 : (0:ℚ) ≤ (if target then (1:ℚ) else 0) := by split_ifs <;> norm_num
  have ht1 : (if target then (1:ℚ) else 0) ≤ 1 := by split_ifs <;> norm_num
  unfold mutStep
  by_cases h : draw < mp
  · rw [if_pos h]
    exact convex_unit p ms _ hp0 hp1 hms0 hms1 ht0 ht1
  · rw [if_neg h]
    exact ⟨hp0, hp1⟩

/-- Helper: core quantization bound for the affine decode of the floor of
the scaled normalized value. -/
theorem roundtrip_core (mn mx v : ℚ) (h1 : mn < mx) (h2 : mn ≤ v) (h3 : v ≤ mx) :
    0 ≤ ⌊(v - mn) / (mx - mn) * 65535⌋ ∧
    |(mn + ((⌊(v - mn) / (mx - mn) * 65535⌋ : ℚ) / 65535) * (mx - mn)) - v|
      ≤ (mx - mn) / 65535 := by
  have hd0 : (0:ℚ) < mx - mn := by linarith
  have ht0 : 0 ≤ (v - mn) / (mx - mn) := div_nonneg (by linarith) hd0.le
  have harg : (0:ℚ) ≤ (v - mn) / (mx - mn) * 65535 := by positivity
  refine ⟨Int.le_floor.mpr (by exact_mod_cast harg), ?_⟩
  have hfl : ((⌊(v - mn) / (mx - mn) * 65535⌋ : ℤ) : ℚ)
      ≤ (v - mn) / (mx - mn) * 65535 := Int.floor_le _
  have hfu : (v - mn) / (mx - mn) * 65535
      < ⌊(v - mn) / (mx - mn) * 65535⌋ + 1 := Int.lt_floor_add_one _
  have hveq : v = mn + (v - mn) / (mx - mn) * (mx - mn) := by
    have hne := hd0.ne'
    field_simp
  have hkey : mn + ((⌊(v - mn) / (mx - mn) * 65535⌋ : ℚ) / 65535) * (mx - mn) - v
      = ((⌊(v - mn) / (mx - mn) * 65535⌋ : ℚ) / 65535 - (v - mn) / (mx - mn))
        * (mx - mn) := by
    nth_rewrite 2 [hveq]
    ring
  rw [hkey, abs_mul, abs_of_pos hd0]
  have hb1 : (⌊(v - mn) / (mx - mn) * 65535⌋ : ℚ) / 65535 - (v - mn) / (mx - mn) ≤ 0 := by
    have h4 : (⌊(v - mn) / (mx - mn) * 65535⌋ : ℚ) / 65535 ≤ (v - mn) / (mx - mn) := by
      rw [div_le_iff₀ (by norm_num : (0:ℚ) < 65535)]
      exact hfl
    linarith
  have hb2 : -(1/65535) ≤ (⌊(v - mn) / (mx - mn) * 65535⌋ : ℚ) / 65535
      - (v - mn) / (mx - mn) := by
    have h4 : (v - mn) / (mx - mn) ≤ ((⌊(v - mn) / (mx - mn) * 65535⌋ : ℚ) + 1) / 65535 := by
      rw [le_div_iff₀ (by norm_num : (0:ℚ) < 65535)]
      push_cast at hfu ⊢
      linarith
    have h6 : ((⌊(v - mn) / (mx - mn) * 65535⌋ : ℚ) + 1) / 65535
        = (⌊(v - mn) / (mx - mn) * 65535⌋ : ℚ) / 65535 + 1/65535 := by ring
    linarith
  have habs : |(⌊(v - mn) / (mx - mn) * 65535⌋ : ℚ) / 65535 - (v - mn) / (mx - mn)|
      ≤ 1/65535 := abs_le.mpr ⟨by linarith, by linarith⟩
  calc |(⌊(v - mn) / (mx - mn) * 65535⌋ : ℚ) / 65535 - (v - mn) / (mx - mn)| * (mx - mn)
      ≤ 1/65535 * (mx - mn) := mul_le_mul_of_nonneg_right habs hd0.le
    _ = (mx - mn) / 65535 := by ring

/-- C9: for the single integer parameter bounded `[0, 100]`, `encode 50`
yields the big-endian 16-bit pattern of 32767 (`0111111111111111`), and
decoding that code returns exactly 50. -/
theorem example_encode_decode_50 :
    pctParam.encode 50 = false :: List.replicate 15 true ∧
    pctParam.decode (false :: List.replicate 15 true) = 50 := by
  constructor
  · have h1 : pyInt ((50 - pctParam.min_value) / (pctParam.max_value - pctParam.min_value) * 65535)
        = 32767 := by
      rw [pyInt_nonneg_eq _ (by norm_num [pctParam])]
      norm_num [pctParam]
    simp only [Parameter.encode]
    rw [h1]
    decide
  · have h2 : bitsToNat (false :: List.replicate 15 true) = 32767 := by decide
    rw [decode_int_eq _ _ rfl, h2]
    simp only [pctParam]
    rw [pyRound_half_lt _ (by push_cast; norm_num)]
    push_cast
    norm_num

/-- C2 counterexample: for the integer parameter bounded `[0, 100]` and the
in-range value `v = 50.4`, the decoded round-trip value is 50, which is
farther from `v` than the claimed tolerance `(max - min)/65535`. -/
theorem roundtrip_tolerance_counterexample :
    pctParam.min_value < pctParam.max_value ∧
    pctParam.min_value ≤ 252/5 ∧ (252/5 : ℚ) ≤ pctParam.max_value ∧
    ¬ (|pctParam.decode (pctParam.encode (252/5)) - 252/5| ≤
        (pctParam.max_value - pctParam.min_value) / 65535) := by
  have h1 : pyInt ((252/5 - pctParam.min_value) / (pctParam.max_value - pctParam.min_value) * 65535)
      = 33029 := by
    rw [pyInt_nonneg_eq _ (by norm_num [pctParam])]
    norm_num [pctParam]
  have henc : pctParam.encode (252/5) = format016b 33029 := by
    simp only [Parameter.encode]
    rw [h1]
  have h2 : bitsToNat (format016b 33029) = 33029 := by decide
  have hdec : pctParam.decode (pctParam.encode (252/5)) = 50 := by
    rw [henc, decode_int_eq _ _ rfl, h2]
    simp only [pctParam]
    rw [pyRound_lt_half _ (by push_cast; norm_num)]
    push_cast
    norm_num
  refine ⟨by norm_num [pctParam], by norm_num [pctParam], by norm_num [pctParam], ?_⟩
  rw [hdec]
  have habs : |(50:ℚ) - 252/5| = 2/5 := by
    rw [abs_of_nonpos (by norm_num)]
    norm_num
  rw [habs]
  norm_num [pctParam]

/-- C6 counterexample: `encode` does not clamp.  For the `[0, 100]`
parameter and the out-of-range value 200, the scaled integer is 131070,
whose binary rendering has 17 bits, so the emitted code differs from
`encode(max_value)` (16 ones) instead of equalling it. -/
theorem encode_no_clamp_counterexample :
    (pctParam.encode 200).length = 17 ∧
    pctParam.encode 200 ≠ pctParam.encode pctParam.max_value := by
  have h1 : pyInt ((200 - pctParam.min_value) / (pctParam.max_value - pctParam.min_value) * 65535)
      = 131070 := by
    rw [pyInt_nonneg_eq _ (by norm_num [pctParam])]
    norm_num [pctParam]
  have h2 : pyInt ((pctParam.max_value - pctParam.min_value)
      / (pctParam.max_value - pctParam.min_value) * 65535) = 65535 := by
    rw [pyInt_nonneg_eq _ (by norm_num [pctParam])]
    norm_num [pctParam]
  have he1 : pctParam.encode 200 = format016b 131070 := by
    simp only [Parameter.encode]
    rw [h1]
  have he2 : pctParam.encode pctParam.max_value = format016b 65535 := by
    simp only [Parameter.encode]
    rw [h2]
  rw [he1, he2]
  exact ⟨by decide, by decide⟩

/-- C10 counterexample: for the integer parameter bounded `[0, 8/5]`, the
all-ones 16-bit code decodes to the unrounded value `8/5`, which Python
`round()` lifts to 2 — outside the declared bounds. -/
theorem decode_bounds_counterexample :
    fracParam.min_value < fracParam.max_value ∧
    (List.replicate 16 true).length = 16 ∧
    fracParam.decode (List.replicate 16 true) = 2 ∧
    ¬ (fracParam.decode (List.replicate 16 true) ≤ fracParam.max_value) := by
  have h2 : bitsToNat (List.replicate 16 true) = 65535 := by decide
  have hdec : fracParam.decode (List.replicate 16 true) = 2 := by
    rw [decode_int_eq _ _ rfl, h2]
    simp only [fracParam]
    rw [pyRound_half_lt _ (by push_cast; norm_num)]
    push_cast
    norm_num
  refine ⟨by norm_num [fracParam], by decide, hdec, ?_⟩
  rw [hdec]
  norm_num [fracParam]

/-- C7 counterexample: constructing the optimizer over a malformed
parameter space (`min_value > max_value` in one parameter, duplicate
names) succeeds with the usual uniform probability vector — there is no
`ConfigurationError` — and a generation still executes and produces a
record over that space. -/
theorem malformed_space_constructs_counterexample :
    (PBIL.init badParamSpace (1/10) (3/40) (1/50) (1/20)).prob_vector
      = List.replicate 32 (1/2) ∧
    (PBIL.init badParamSpace (1/10) (3/40) (1/50) (1/20)).total_bits = 32 ∧
    (mainGeneration [] (PBIL.init badParamSpace (1/10) (3/40) (1/50) (1/20)) 0 [] [1/2]).isSome
      = true := by
  refine ⟨rfl, rfl, ?_⟩
  simp [mainGeneration, argsort, insertAsc, List.range_succ]

/-- C4: when the evaluation oracle hands back an empty score list (as
`parse_tournament_results` does whenever the rankings header is missing),
the generation step of `main` does not record a sentinel-filled generation:
it dies with an `IndexError` at `np.argsort(fitness_scores)[::-1][0]`,
modelled here as `none`. -/
theorem driver_empty_scores_crash (defaults : List (String × ℚ)) (m : PBIL) (g : ℕ)
    (population : List (List Bool)) :
    mainGeneration defaults m g population [] = none := by
  simp [mainGeneration]

/-- C1: the generation loop of `main` never feeds results back into the
probability model: whenever a generation step completes, the model it
passes to the next generation has the probability vector it started with —
while `update_probabilities` applied to the generation's best and worst
codes (here, for the spec's `Depth` parameter space at the uniform prior)
would have produced a different vector. -/
theorem driver_generation_never_updates_model :
    (∀ (defaults : List (String × ℚ)) (m : PBIL) (g : ℕ) (population : List (List Bool))
        (scores : List ℚ) (r : GenRecord) (m2 : PBIL),
        mainGeneration defaults m g population scores = some (r, m2) →
        m2.prob_vector = m.prob_vector)
    ∧ ((PBIL.init [depthParam] (1/10) (3/40) (1/50) (1/20)).update_probabilities
          (List.replicate 16 true) (List.replicate 16 false) (fun _ => 1)
          (fun _ => false)).prob_vector
        ≠ (PBIL.init [depthParam] (1/10) (3/40) (1/50) (1/20)).prob_vector := by
  constructor
  · intro defaults m g population scores r m2 h
    simp only [mainGeneration] at h
    split at h
    · exact absurd h (by simp)
    · split at h
      · exact absurd h (by simp)
      · rw [Option.some_inj] at h
        have h2 := congrArg Prod.snd h
        simp only at h2
        rw [← h2]
  · have hL : ((PBIL.init [depthParam] (1/10) (3/40) (1/50) (1/20)).update_probabilities
        (List.replicate 16 true) (List.replicate 16 false) (fun _ => 1)
        (fun _ => false)).prob_vector.getD 0 0 = 47/80 := by
      simp only [PBIL.update_probabilities, PBIL.init]
      rw [getD_map_range _ _ _ _ (by norm_num)]
      rw [getD_map_range _ _ _ _ (by norm_num)]
      simp only [List.replicate_succ, List.getD_cons_zero, mutStep, mainStep]
      norm_num
    have hR : (PBIL.init [depthParam] (1/10) (3/40) (1/50) (1/20)).prob_vector.getD 0 0
        = 1/2 := by
      simp [PBIL.init, List.replicate_succ]
    intro heq
    have h0 := congrArg (fun l => l.getD 0 (0:ℚ)) heq
    simp only at h0
    rw [hL, hR] at h0
    norm_num at h0

/-- C2 (amended): for every parameter with `min_value < max_value` and every
in-range value, the round-trip error is within `(max - min)/65535` when
`is_integer` is false; when `is_integer` is true, the decoded value is a
whole number and the error is within `(max - min)/65535 + 1/2` (the extra
half comes from the final rounding). -/
theorem decode_encode_within_tolerance (p : Parameter) (v : ℚ)
    (h1 : p.min_value < p.max_value) (h2 : p.min_value ≤ v) (h3 : v ≤ p.max_value) :
    (p.is_integer = false →
      |p.decode (p.encode v) - v| ≤ (p.max_value - p.min_value) / 65535) ∧
    (p.is_integer = true →
      (∃ k : ℤ, p.decode (p.encode v) = (k : ℚ)) ∧
      |p.decode (p.encode v) - v| ≤ (p.max_value - p.min_value) / 65535 + 1/2) := by
  obtain ⟨hn0, hclose⟩ := roundtrip_core p.min_value p.max_value v h1 h2 h3
  have hd0 : (0:ℚ) < p.max_value - p.min_value := by linarith
  have harg0 : (0:ℚ) ≤ (v - p.min_value) / (p.max_value - p.min_value) * 65535 :=
    mul_nonneg (div_nonneg (by linarith) hd0.le) (by norm_num)
  have henc : p.encode v
      = format016b ⌊(v - p.min_value) / (p.max_value - p.min_value) * 65535⌋ := by
    simp only [Parameter.encode]
    rw [pyInt_nonneg_eq _ harg0]
  have hback : ((bitsToNat (p.encode v) : ℚ))
      = ((⌊(v - p.min_value) / (p.max_value - p.min_value) * 65535⌋ : ℤ) : ℚ) := by
    rw [henc, bitsToNat_format016b _ hn0]
    exact_mod_cast congrArg (fun z : ℤ => (z : ℚ)) (Int.toNat_of_nonneg hn0)
  constructor
  · intro hflag
    rw [decode_float_eq p _ hflag, hback]
    exact hclose
  · intro hflag
    rw [decode_int_eq p _ hflag, hback]
    refine ⟨⟨_, rfl⟩, ?_⟩
    have h5 := abs_pyRound_sub_le (p.min_value +
      ((⌊(v - p.min_value) / (p.max_value - p.min_value) * 65535⌋ : ℚ) / 65535)
        * (p.max_value - p.min_value))
    have h6 := abs_sub_le
      ((pyRound (p.min_value +
        ((⌊(v - p.min_value) / (p.max_value - p.min_value) * 65535⌋ : ℚ) / 65535)
          * (p.max_value - p.min_value)) : ℤ) : ℚ)
      (p.min_value +
        ((⌊(v - p.min_value) / (p.max_value - p.min_value) * 65535⌋ : ℚ) / 65535)
          * (p.max_value - p.min_value))
      v
    linarith [hclose]

/-- C2 witness: the amended tolerance bound applied to the non-integer
`[0, 100]` parameter at the in-range value 50. -/
theorem decode_encode_within_tolerance_witness :
    pctParamF.min_value < pctParamF.max_value ∧
    |pctParamF.decode (pctParamF.encode 50) - 50|
      ≤ (pctParamF.max_value - pctParamF.min_value) / 65535 :=
  ⟨by norm_num [pctParamF],
   (decode_encode_within_tolerance pctParamF 50 (by norm_num [pctParamF])
      (by norm_num [pctParamF]) (by norm_num [pctParamF])).1 rfl⟩

/-- C6 (amended): `encode` applies no clamping: an out-of-range value flows
through normalization and truncation unchanged, and whenever the truncated
scaled value reaches 65536 the emitted code grows beyond 16 bits and
therefore differs from `encode(max_value)`; no error signal exists. -/
theorem encode_out_of_range_no_clamp (p : Parameter) (v : ℚ)
    (hmm : p.min_value < p.max_value)
    (hbig : (65536:ℤ)
      ≤ pyInt ((v - p.min_value) / (p.max_value - p.min_value) * 65535)) :
    16 < (p.encode v).length ∧ p.encode v ≠ p.encode p.max_value := by
  have hlen1 : 17 ≤ (p.encode v).length := by
    simp only [Parameter.encode]
    exact format016b_length_ge _ hbig
  have hdne : p.max_value - p.min_value ≠ 0 := (sub_pos.mpr hmm).ne'
  have hmaxarg : (p.max_value - p.min_value) / (p.max_value - p.min_value) * 65535
      = (65535:ℚ) := by
    rw [div_self hdne, one_mul]
  have hlen2 : (p.encode p.max_value).length = 16 := by
    simp only [Parameter.encode]
    rw [hmaxarg, pyInt_nonneg_eq _ (by norm_num)]
    rw [show ⌊(65535:ℚ)⌋ = 65535 from by norm_num]
    exact format016b_length_eq 65535 (by norm_num) (by norm_num)
  refine ⟨by omega, ?_⟩
  intro heq
  have h2 := congrArg List.length heq
  rw [hlen2] at h2
  omega

/-- C6 witness: the no-clamp behavior applied to the `[0, 100]` parameter at
the out-of-range value 200, whose truncated scaled value is 131070. -/
theorem encode_out_of_range_no_clamp_witness :
    pctParam.min_value < pctParam.max_value ∧
    (65536:ℤ) ≤ pyInt ((200 - pctParam.min_value)
      / (pctParam.max_value - pctParam.min_value) * 65535) ∧
    (16 < (pctParam.encode 200).length ∧
      pctParam.encode 200 ≠ pctParam.encode pctParam.max_value) := by
  have hbig : (65536:ℤ) ≤ pyInt ((200 - pctParam.min_value)
      / (pctParam.max_value - pctParam.min_value) * 65535) := by
    rw [pyInt_nonneg_eq _ (by norm_num [pctParam])]
    norm_num [pctParam]
  exact ⟨by norm_num [pctParam], hbig,
    encode_out_of_range_no_clamp pctParam 200 (by norm_num [pctParam]) hbig⟩

/-- C10 (amended): for every parameter with `min_value < max_value` and
every 16-bit code, the decoded value stays within `[min_value, max_value]`
when `is_integer` is false, and also when `is_integer` is true provided
both bounds are whole numbers (rounding can escape fractional bounds). -/
theorem decode_stays_in_bounds (p : Parameter) (bits : List Bool)
    (h1 : p.min_value < p.max_value) (hlen : bits.length = 16) :
    (p.is_integer = false →
      p.min_value ≤ p.decode bits ∧ p.decode bits ≤ p.max_value) ∧
    (p.is_integer = true → (∃ a : ℤ, p.min_value = (a : ℚ)) →
      (∃ b : ℤ, p.max_value = (b : ℚ)) →
      p.min_value ≤ p.decode bits ∧ p.decode bits ≤ p.max_value) := by
  have hn : bitsToNat bits ≤ 65535 := by
    have h2 := bitsToNat_lt bits
    rw [hlen] at h2
    have hp : (2:ℕ) ^ 16 = 65536 := by norm_num
    omega
  have hv1 : p.min_value
      ≤ p.min_value + ((bitsToNat bits : ℚ) / 65535) * (p.max_value - p.min_value) := by
    have h4 : (0:ℚ) ≤ ((bitsToNat bits : ℚ) / 65535) * (p.max_value - p.min_value) := by
      apply mul_nonneg
      · positivity
      · linarith
    linarith
  have hv2 : p.min_value + ((bitsToNat bits : ℚ) / 65535) * (p.max_value - p.min_value)
      ≤ p.max_value := by
    have hfrac : ((bitsToNat bits : ℚ) / 65535) ≤ 1 := by
      rw [div_le_one (by norm_num : (0:ℚ) < 65535)]
      exact_mod_cast hn
    nlinarith [sub_pos.mpr h1]
  constructor
  · intro hflag
    rw [decode_float_eq p bits hflag]
    exact ⟨hv1, hv2⟩
  · rintro hflag ⟨a, ha⟩ ⟨b, hb⟩
    rw [decode_int_eq p bits hflag]
    constructor
    · have h5 : a ≤ ⌊p.min_value + ((bitsToNat bits : ℚ) / 65535)
          * (p.max_value - p.min_value)⌋ :=
        Int.le_floor.mpr (le_trans (le_of_eq ha.symm) hv1)
      have h6 : a ≤ pyRound (p.min_value + ((bitsToNat bits : ℚ) / 65535)
          * (p.max_value - p.min_value)) := le_trans h5 (floor_le_pyRound _)
      calc p.min_value = (a : ℚ) := ha
        _ ≤ _ := Int.cast_le.mpr h6
    · have h5 : ⌈p.min_value + ((bitsToNat bits : ℚ) / 65535)
          * (p.max_value - p.min_value)⌉ ≤ b :=
        Int.ceil_le.mpr (le_trans hv2 (le_of_eq hb))
      have h6 : pyRound (p.min_value + ((bitsToNat bits : ℚ) / 65535)
          * (p.max_value - p.min_value)) ≤ b := le_trans (pyRound_le_ceil _) h5
      calc ((pyRound (p.min_value + ((bitsToNat bits : ℚ) / 65535)
              * (p.max_value - p.min_value)) : ℤ) : ℚ)
          ≤ (b : ℚ) := Int.cast_le.mpr h6
        _ = p.max_value := hb.symm

/-- C10 witness: the in-bounds guarantee applied to the non-integer
`[0, 100]` parameter at the all-zeros code, and to the integer `Depth`
parameter (whole bounds 1 and 10) at the all-ones code. -/
theorem decode_stays_in_bounds_witness :
    (pctParamF.min_value ≤ pctParamF.decode (List.replicate 16 false) ∧
      pctParamF.decode (List.replicate 16 false) ≤ pctParamF.max_value) ∧
    (depthParam.min_value ≤ depthParam.decode (List.replicate 16 true) ∧
      depthParam.decode (List.replicate 16 true) ≤ depthParam.max_value) := by
  constructor
  · exact (decode_stays_in_bounds pctParamF (List.replicate 16 false)
      (by norm_num [pctParamF]) (by decide)).1 rfl
  · exact (decode_stays_in_bounds depthParam (List.replicate 16 true)
      (by norm_num [depthParam]) (by decide)).2 rfl
      ⟨1, by norm_num [depthParam]⟩ ⟨10, by norm_num [depthParam]⟩

/-- C3: on a well-formed state (vector length `16·|parameters|`, entries in
`[0, 1]`, rates in `[0, 1]` with `learn_rate + neg_learn_rate ≤ 1`) and any
pair of bit vectors of length `16·|parameters|`, `update_probabilities`
keeps every probability in `[0, 1]` and leaves the vector length at its
construction value `16·|parameters|`, for every state of the random
source. -/
theorem update_probabilities_preserves_invariants (m : PBIL) (best worst : List Bool)
    (draws : ℕ → ℚ) (targets : ℕ → Bool)
    (hlen : m.prob_vector.length = m.total_bits)
    (htb : m.total_bits = m.parameters.length * 16)
    (hp : ∀ q ∈ m.prob_vector, 0 ≤ q ∧ q ≤ 1)
    (hlr : 0 ≤ m.learn_rate ∧ m.learn_rate ≤ 1)
    (hnlr : 0 ≤ m.neg_learn_rate ∧ m.neg_learn_rate ≤ 1)
    (hsum : m.learn_rate + m.neg_learn_rate ≤ 1)
    (hmp : 0 ≤ m.mut_prob ∧ m.mut_prob ≤ 1)
    (hms : 0 ≤ m.mut_shift ∧ m.mut_shift ≤ 1)
    (hb : best.length = 16 * m.parameters.length)
    (hw : worst.length = 16 * m.parameters.length) :
    (∀ q ∈ (m.update_probabilities best worst draws targets).prob_vector,
      0 ≤ q ∧ q ≤ 1) ∧
    (m.update_probabilities best worst draws targets).prob_vector.length
      = m.parameters.length * 16 ∧
    (m.update_probabilities best worst draws targets).prob_vector.length
      = m.prob_vector.length := by
  refine ⟨?_, ?_, ?_⟩
  · intro q hq
    simp only [PBIL.update_probabilities] at hq
    rw [List.mem_map] at hq
    obtain ⟨i, hi, rfl⟩ := hq
    rw [List.mem_range] at hi
    rw [getD_map_range _ _ _ _ hi]
    have hpi : 0 ≤ m.prob_vector.getD i 0 ∧ m.prob_vector.getD i 0 ≤ 1 := by
      have hi2 : i < m.prob_vector.length := by omega
      rw [List.getD_eq_getElem _ _ hi2]
      exact hp _ (List.getElem_mem hi2)
    have hmain := mainStep_mem m.learn_rate m.neg_learn_rate (m.prob_vector.getD i 0)
      (best.getD i false) (worst.getD i false) hpi.1 hpi.2 hlr.1 hlr.2 hnlr.1 hsum
    exact mutStep_mem m.mut_prob m.mut_shift _ (draws i) (targets i)
      hmain.1 hmain.2 hms.1 hms.2
  · simp only [PBIL.update_probabilities]
    simp [htb]
  · simp only [PBIL.update_probabilities]
    simp [hlen]

/-- C3 witness: the invariant preservation applied to the freshly
constructed model over the `Depth` parameter with the source defaults and
deterministic random draws. -/
theorem update_probabilities_preserves_invariants_witness :
    ((PBIL.init [depthParam] (1/10) (3/40) (1/50) (1/20)).update_probabilities
        (List.replicate 16 true) (List.replicate 16 false) (fun _ => 1)
        (fun _ => true)).prob_vector.length
      = (PBIL.init [depthParam] (1/10) (3/40) (1/50) (1/20)).prob_vector.length :=
  (update_probabilities_preserves_invariants
    (PBIL.init [depthParam] (1/10) (3/40) (1/50) (1/20))
    (List.replicate 16 true) (List.replicate 16 false) (fun _ => 1) (fun _ => true)
    (by simp [PBIL.init]) rfl
    (by
      intro q hq
      simp only [PBIL.init] at hq
      rw [List.eq_of_mem_replicate hq]
      norm_num)
    (by constructor <;> norm_num [PBIL.init])
    (by constructor <;> norm_num [PBIL.init])
    (by norm_num [PBIL.init])
    (by constructor <;> norm_num [PBIL.init])
    (by constructor <;> norm_num [PBIL.init])
    (by simp [PBIL.init, depthParam])
    (by simp [PBIL.init, depthParam])).2.2

/-- C5: the pointwise update formula: position `i` of the vector after
`update_probabilities` is the agree/disagree convex step toward the best
bit, followed by the mutation nudge toward the random target exactly when
the mutation draw falls below `mut_prob`. -/
theorem update_probabilities_pointwise (m : PBIL) (best worst : List Bool)
    (draws : ℕ → ℚ) (targets : ℕ → Bool) (i : ℕ) (hi : i < m.total_bits) :
    (m.update_probabilities best worst draws targets).prob_vector.getD i 0 =
      (let p := m.prob_vector.getD i 0
       let bq : ℚ := if best.getD i false then 1 else 0
       let afterMain :=
         if best.getD i false = worst.getD i false
         then p * (1 - m.learn_rate) + bq * m.learn_rate
         else p * (1 - (m.learn_rate + m.neg_learn_rate))
            + bq * (m.learn_rate + m.neg_learn_rate)
       if draws i < m.mut_prob
       then afterMain * (1 - m.mut_shift) + (if targets i then (1:ℚ) else 0) * m.mut_shift
       else afterMain) := by
  simp only [PBIL.update_probabilities]
  rw [getD_map_range _ _ _ _ hi, getD_map_range _ _ _ _ hi]
  simp only [mutStep, mainStep]

/-- C5 witness: the pointwise formula instantiated at bit 0 of the default
model over the `Depth` parameter. -/
theorem update_probabilities_pointwise_witness :
    0 < (PBIL.init [depthParam] (1/10) (3/40) (1/50) (1/20)).total_bits ∧
    ((PBIL.init [depthParam] (1/10) (3/40) (1/50) (1/20)).update_probabilities
        (List.replicate 16 true) (List.replicate 16 false) (fun _ => 0)
        (fun _ => true)).prob_vector.getD 0 0 =
      (let m := PBIL.init [depthParam] (1/10) (3/40) (1/50) (1/20)
       let p := m.prob_vector.getD 0 0
       let bq : ℚ := if (List.replicate 16 true).getD 0 false then 1 else 0
       let afterMain :=
         if (List.replicate 16 true).getD 0 false = (List.replicate 16 false).getD 0 false
         then p * (1 - m.learn_rate) + bq * m.learn_rate
         else p * (1 - (m.learn_rate + m.neg_learn_rate))
            + bq * (m.learn_rate + m.neg_learn_rate)
       if (0:ℚ) < m.mut_prob
       then afterMain * (1 - m.mut_shift) + (1:ℚ) * m.mut_shift
       else afterMain) := by
  constructor
  · norm_num [PBIL.init]
  · have h := update_probabilities_pointwise
      (PBIL.init [depthParam] (1/10) (3/40) (1/50) (1/20))
      (List.replicate 16 true) (List.replicate 16 false) (fun _ => 0) (fun _ => true)
      0 (by norm_num [PBIL.init])
    simpa using h

/-- C8: a probability vector pinned at all ones makes every sampled
individual the all-true code, and all zeros makes every individual the
all-false code, for every population size and every state of a random
source that produces values in `[0, 1)` as `random.random()` does. -/
theorem generate_population_extremes (m : PBIL) (size : ℕ) (rng : ℕ → ℚ)
    (hr : ∀ k, 0 ≤ rng k ∧ rng k < 1) :
    ((∀ q ∈ m.prob_vector, q = 1) →
      m.generate_population size rng
        = List.replicate size (List.replicate m.prob_vector.length true)) ∧
    ((∀ q ∈ m.prob_vector, q = 0) →
      m.generate_population size rng
        = List.replicate size (List.replicate m.prob_vector.length false)) := by
  constructor
  · intro hone
    unfold PBIL.generate_population
    rw [List.eq_replicate_iff]
    refine ⟨by simp, ?_⟩
    intro ind hind
    rw [List.mem_map] at hind
    obtain ⟨j, hj, rfl⟩ := hind
    rw [List.eq_replicate_iff]
    refine ⟨by simp, ?_⟩
    intro b hb
    rw [List.mem_map] at hb
    obtain ⟨i, hi2, rfl⟩ := hb
    rw [List.mem_range] at hi2
    have hpv : m.prob_vector.getD i 0 = 1 := by
      rw [List.getD_eq_getElem _ _ hi2]
      exact hone _ (List.getElem_mem hi2)
    rw [hpv]
    exact decide_eq_true (hr _).2
  · intro hzero
    unfold PBIL.generate_population
    rw [List.eq_replicate_iff]
    refine ⟨by simp, ?_⟩
    intro ind hind
    rw [List.mem_map] at hind
    obtain ⟨j, hj, rfl⟩ := hind
    rw [List.eq_replicate_iff]
    refine ⟨by simp, ?_⟩
    intro b hb
    rw [List.mem_map] at hb
    obtain ⟨i, hi2, rfl⟩ := hb
    rw [List.mem_range] at hi2
    have hpv : m.prob_vector.getD i 0 = 0 := by
      rw [List.getD_eq_getElem _ _ hi2]
      exact hzero _ (List.getElem_mem hi2)
    rw [hpv]
    exact decide_eq_false (not_lt.mpr (hr _).1)

/-- C8 witness: the extreme-vector sampling law applied to concrete all-one
and all-zero models with the constant random source 1/2. -/
theorem generate_population_extremes_witness :
    allOneModel.generate_population 2 (fun _ => 1/2)
        = List.replicate 2 (List.replicate allOneModel.prob_vector.length true) ∧
    allZeroModel.generate_population 2 (fun _ => 1/2)
        = List.replicate 2 (List.replicate allZeroModel.prob_vector.length false) := by
  constructor
  · exact (generate_population_extremes allOneModel 2 (fun _ => 1/2)
      (fun k => by constructor <;> norm_num)).1
      (by
        intro q hq
        simp only [allOneModel] at hq
        exact List.eq_of_mem_replicate hq)
  · exact (generate_population_extremes allZeroModel 2 (fun _ => 1/2)
      (fun k => by constructor <;> norm_num)).2
      (by
        intro q hq
        simp only [allZeroModel] at hq
        exact List.eq_of_mem_replicate hq)

/-- C7 (amended): `PBIL.__init__` performs no validation whatsoever: over
every parameter list — malformed ones included — construction succeeds and
produces the uniform probability vector of length `16·|parameters|`; no
`ConfigurationError` exists anywhere in the code. -/
theorem pbil_init_no_validation (params : List Parameter) (lr nlr mp ms : ℚ) :
    (PBIL.init params lr nlr mp ms).prob_vector
        = List.replicate (params.length * 16) (1/2) ∧
    (PBIL.init params lr nlr mp ms).total_bits = params.length * 16 ∧
    (PBIL.init params lr nlr mp ms).parameters = params :=
  ⟨rfl, rfl, rfl⟩

/-- C1 witness: a concrete successful generation step over the `Depth`
space, showing the step succeeds and the model it returns carries the
unchanged probability vector. -/
theorem driver_generation_never_updates_model_witness :
    mainGeneration [] (PBIL.init [depthParam] (1/10) (3/40) (1/50) (1/20)) 0 [] [1/2]
        = some (⟨0, [], 1/2, 1/2⟩, PBIL.init [depthParam] (1/10) (3/40) (1/50) (1/20)) ∧
    (PBIL.init [depthParam] (1/10) (3/40) (1/50) (1/20)).prob_vector
        = (PBIL.init [depthParam] (1/10) (3/40) (1/50) (1/20)).prob_vector := by
  have h : mainGeneration [] (PBIL.init [depthParam] (1/10) (3/40) (1/50) (1/20)) 0 [] [1/2]
      = some (⟨0, [], 1/2, 1/2⟩, PBIL.init [depthParam] (1/10) (3/40) (1/50) (1/20)) := by
    simp [mainGeneration, argsort, insertAsc, List.range_succ]
  exact ⟨h, driver_generation_never_updates_model.1 [] _ 0 [] [1/2] _ _ h⟩

end SharpKnight
